import Mathlib

/-!
Verification of the `loupe` memory-accounting library (wasmerio/loupe).

This file shallowly embeds the `MemoryUsage` protocol of
`crates/loupe/src/memory_usage.rs` (together with the `ptr.rs`, `cell.rs`
and `sync.rs` submodules) and the code generated by the
`crates/loupe-derive` procedural macro, and proves or refutes the
specified properties of `size_of_val`.

Modelling conventions:

* Machine addresses are `Nat`; the dedup tracker (a `BTreeSet<*const ()>`
  in the source) is a duplicate-free list of addresses, and `track`
  mirrors `BTreeSet::insert`, returning `true` exactly when the address
  was not yet present.
* `usize` results are `Nat`.  The source subtracts a child's flat size
  from its deep size with plain `usize` arithmetic, which panics on
  underflow in debug builds and wraps in release builds; the evaluator
  therefore returns `Option (Nat × Tracker)` and yields `none` exactly
  when such a subtraction underflows.
* The trusted layout primitive `std::mem::size_of_val` is embedded as
  `flatSize`.  Layout constants that the primitive reports but the core
  never computes (padding of a tuple or struct, the header size of a
  `Vec`/`HashMap`/`PathBuf`, the flat size of an enum, the flat size of
  the value inside an `UnsafeCell`, the flat size of a `Box`/`Arc`
  pointer) are stored in the value tree as data, exactly as the trusted
  primitive would report them.  The target is 64-bit, so
  `POINTER_BYTE_SIZE = 8` (the spec's scenarios also fix `W = 8`).
-/

/-- Pointer width in bytes on the modelled 64-bit target, mirroring the
`POINTER_BYTE_SIZE` constant of `memory_usage.rs` (`cfg!` selects 8 for a
64-bit `target_pointer_width`). -/
def POINTER_BYTE_SIZE : Nat := 8

/-- A machine address (`*const ()` in the source). -/
abbrev Addr := Nat

/-- The dedup tracker state: the set of addresses already charged during
the current walk (`BTreeSet<*const ()>` in the source), as a list without
duplicates by construction of `track`. -/
abbrev Tracker := List Addr

/-- Embeds `MemoryUsageTracker::track` for `BTreeSet<*const ()>`
(`memory_usage.rs` line 23): `self.insert(address)` returns `true` iff the
address was newly inserted.  Returns the answer together with the updated
tracker. -/
def track (t : Tracker) (a : Addr) : Bool × Tracker :=
  if a ∈ t then (false, t) else (true, a :: t)

mutual

/-- A value of a type implementing `MemoryUsage`, restricted to the
implementations the specification's claims are about.

* `prim sz` — a primitive scalar (`bool`, `char`, the integer and float
  types): its only datum is its flat size `sz`.
* `ref a v` — a `&T` or `&mut T` whose referent lives at address `a`
  (both impls in `ptr.rs` are token-for-token identical).
* `rawPtr a` — a `*const T`, `*mut T` or `NonNull<T>` holding address `a`
  (the three impls in `ptr.rs` are identical and never dereference).
* `cell a innerFlat` — an `UnsafeCell<T>` (`cell.rs`); `a` is the address
  returned by `self.get()` and `innerFlat` is
  `mem::size_of_val` of the cell, i.e. `size_of::<T>()`.
* `slice vs` / `arr vs` — a `[T]` slice or `[T; N]` array; the two impls
  in `memory_usage.rs` have the same body.
* `tup pad vs` — a tuple; its flat size is the sum of the slot flat sizes
  plus the inter-slot padding `pad` reported by the layout primitive.
* `boxV ptrFlat v` — a `Box<T>`; `ptrFlat` is the flat size of the box
  itself (one or two words, as the layout primitive reports).
* `arc ptrFlat v` — an `Arc<T>` (`sync.rs`).
* `vecV headerFlat vs` — a `Vec<T>`; `headerFlat` is
  `mem::size_of_val(self)`, the pointer/length/capacity header,
  independent of the stored elements.
* `hashMapV headerFlat kvs` — a `HashMap<K, V>` with its header flat size
  and its key-value entries.
* `strRef len` — a `&str` over a buffer of `len` bytes.
* `stringV len cap` — a `String` of current length `len` and capacity
  `cap`.
* `pathBuf headerFlat cap` — a `PathBuf` with header flat size and
  backing-store capacity `cap`.
* `structV pad fields` — a value of a user struct whose impl was produced
  by `loupe-derive` (`derive_memory_usage_for_struct`); `pad` is the
  inter-field padding so that the struct's flat size is
  `pad + ` the sum of the field flat sizes.
* `enumV flat fields` — a value of a user enum whose impl was produced by
  `loupe-derive` (`derive_memory_usage_for_enum`); `flat` is the flat
  size of the whole enum and `fields` are the fields of the currently
  live variant (the one selected by the generated `match`). -/
inductive RValue : Type where
  | prim (sz : Nat)
  | ref (a : Addr) (v : RValue)
  | rawPtr (a : Addr)
  | cell (a : Addr) (innerFlat : Nat)
  | slice (vs : RList)
  | arr (vs : RList)
  | tup (pad : Nat) (vs : RList)
  | boxV (ptrFlat : Nat) (v : RValue)
  | arc (ptrFlat : Nat) (v : RValue)
  | vecV (headerFlat : Nat) (vs : RList)
  | hashMapV (headerFlat : Nat) (kvs : RPairs)
  | strRef (len : Nat)
  | stringV (len : Nat) (cap : Nat)
  | pathBuf (headerFlat : Nat) (cap : Nat)
  | structV (pad : Nat) (fields : RList)
  | enumV (flat : Nat) (fields : RList)

/-- A list of child values (elements of a slice/array/tuple/`Vec`, or the
fields of a derived struct/enum variant). -/
inductive RList : Type where
  | nil
  | cons (head : RValue) (tail : RList)

/-- The key-value entries of a `HashMap`. -/
inductive RPairs : Type where
  | nil
  | cons (key : RValue) (value : RValue) (tail : RPairs)

end

mutual

/-- Embeds the trusted layout primitive `std::mem::size_of_val` on the
modelled values: primitives report their own size; thin references and
raw pointers are one pointer wide; an `UnsafeCell<T>` is as wide as `T`;
a slice or array is the sum of its element sizes (the elements of one
slice all have the same stride, so this is `len * size_of::<T>()`); a
tuple or derived struct additionally carries its inter-field padding; a
`&str` is a fat pointer (two words); a `String` and a `Vec` are
pointer+length+capacity; `Box`, `Arc`, `Vec`, `HashMap`, `PathBuf` and
enums carry the constant the primitive reports for them. -/
def flatSize : RValue → Nat
  | .prim sz => sz
  | .ref _ _ => POINTER_BYTE_SIZE
  | .rawPtr _ => POINTER_BYTE_SIZE
  | .cell _ innerFlat => innerFlat
  | .slice vs => flatList vs
  | .arr vs => flatList vs
  | .tup pad vs => pad + flatList vs
  | .boxV ptrFlat _ => ptrFlat
  | .arc ptrFlat _ => ptrFlat
  | .vecV headerFlat _ => headerFlat
  | .hashMapV headerFlat _ => headerFlat
  | .strRef _ => 2 * POINTER_BYTE_SIZE
  | .stringV _ _ => 3 * POINTER_BYTE_SIZE
  | .pathBuf headerFlat _ => headerFlat
  | .structV pad fields => pad + flatList fields
  | .enumV flat _ => flat

/-- Sum of the flat sizes of a list of values. -/
def flatList : RList → Nat
  | .nil => 0
  | .cons v vs => flatSize v + flatList vs

end

mutual

/-- Embeds `MemoryUsage::size_of_val(&self, tracker)` for every modelled
implementation, threading the tracker and returning `none` exactly when a
`usize` subtraction in the source would underflow (debug panic / release
wrap).  Case by case, from the source:

* `prim`: `mem::size_of_val(self)` — no tracker interaction.
* `ref` (`&T`/`&mut T`, ptr.rs lines 76-96): `mem::size_of_val(self)`
  (one pointer) `+ if tracker.track(addr) { pointee.size_of_val } else
  { 0 }`.
* `rawPtr` (`*const T`/`*mut T`/`NonNull<T>`, ptr.rs lines 8-36):
  `if tracker.track(addr) { POINTER_BYTE_SIZE } else { 0 }` — never
  dereferences.
* `cell` (`UnsafeCell<T>`, cell.rs lines 7-15): same rule on
  `self.get()`.
* `slice`/`arr` (`[T]` and `[T; N]`): `mem::size_of_val(self) + Σ
  (child.size_of_val - mem::size_of_val(child))` where each subtraction
  is per-child inside the iterator.
* `tup`: the tuple macro emits the left-associated chain
  `mem::size_of_val(self) + a.size_of_val - flat(a) + b.size_of_val -
  flat(b) + …`, so the running accumulator starts at the tuple's flat
  size; `tupleChain` reproduces that chain.
* `boxV`/`arc` (`Box<T>`, `Arc<T>`): `mem::size_of_val(self) +
  self.as_ref().size_of_val(tracker)` — the full pointee size; the
  tracker is never consulted for the pointee's address.
* `vecV` (`Vec<T>`): `mem::size_of_val(self) + Σ child.size_of_val` —
  full element sizes.
* `hashMapV` (`HashMap<K, V>`): `mem::size_of_val(self) + Σ
  (key.size_of_val + value.size_of_val)`.
* `strRef` (`&str`): `mem::size_of_val(self)` (fat pointer, two words)
  `+ self.as_bytes().size_of_val(tracker)`.  The receiver
  `self.as_bytes()` has type `&[u8]`, and Rust method resolution picks
  the `[T]` impl (whose `&self` parameter matches the receiver type
  `&[u8]` by value) before the `&[T]` impl (which would need the
  autoref'd receiver `&&[u8]`); the `[u8]` impl contributes
  `len + Σ (1 - 1) = len` and never touches the tracker.
* `stringV` (`String`): `self.as_str().size_of_val(tracker)`, i.e.
  exactly the `&str` rule above — `2 * POINTER_BYTE_SIZE + len`; the
  capacity is not read (the repository's own `test_string` asserts
  `2 * POINTER_BYTE_SIZE + len`).
* `pathBuf` (`PathBuf`): `mem::size_of_val(self) + self.capacity()`.
* `structV` (code generated by `derive_memory_usage_for_struct`):
  `std::mem::size_of_val(self) + ` the `join_fold`-built summand chain
  `f1.size_of_val - flat(f1) + f2.size_of_val - flat(f2) + …`, which is
  left-associated, so again `tupleChain` starting from the struct's flat
  size; an empty field list contributes the literal `0`.
* `enumV` (code generated by `derive_memory_usage_for_enum`):
  `std::mem::size_of_val(self) + match self { … => f1.size_of_val -
  flat(f1) + f2.size_of_val - flat(f2) + … }`; the arm's chain is
  evaluated on its own (accumulator starts at 0) and the enum's flat
  size is added afterwards; a zero-field variant's arm is the literal
  `0`. -/
def sizeOfVal : RValue → Tracker → Option (Nat × Tracker)
  | .prim sz, t => some (sz, t)
  | .ref a v, t =>
    match track t a with
    | (true, t1) =>
      match sizeOfVal v t1 with
      | some (n, t2) => some (POINTER_BYTE_SIZE + n, t2)
      | none => none
    | (false, t1) => some (POINTER_BYTE_SIZE, t1)
  | .rawPtr a, t =>
    match track t a with
    | (true, t1) => some (POINTER_BYTE_SIZE, t1)
    | (false, t1) => some (0, t1)
  | .cell a _, t =>
    match track t a with
    | (true, t1) => some (POINTER_BYTE_SIZE, t1)
    | (false, t1) => some (0, t1)
  | .slice vs, t =>
    match extraSum vs t with
    | some (e, t1) => some (flatList vs + e, t1)
    | none => none
  | .arr vs, t =>
    match extraSum vs t with
    | some (e, t1) => some (flatList vs + e, t1)
    | none => none
  | .tup pad vs, t => tupleChain (pad + flatList vs) vs t
  | .boxV ptrFlat v, t =>
    match sizeOfVal v t with
    | some (n, t1) => some (ptrFlat + n, t1)
    | none => none
  | .arc ptrFlat v, t =>
    match sizeOfVal v t with
    | some (n, t1) => some (ptrFlat + n, t1)
    | none => none
  | .vecV headerFlat vs, t =>
    match fullSum vs t with
    | some (n, t1) => some (headerFlat + n, t1)
    | none => none
  | .hashMapV headerFlat kvs, t =>
    match pairsSum kvs t with
    | some (n, t1) => some (headerFlat + n, t1)
    | none => none
  | .strRef len, t => some (2 * POINTER_BYTE_SIZE + len, t)
  | .stringV len _, t => some (2 * POINTER_BYTE_SIZE + len, t)
  | .pathBuf headerFlat cap, t => some (headerFlat + cap, t)
  | .structV pad fields, t => tupleChain (pad + flatList fields) fields t
  | .enumV flat fields, t =>
    match tupleChain 0 fields t with
    | some (e, t1) => some (flat + e, t1)
    | none => none

/-- The element walk of the `[T]` and `[T; N]` impls:
`Σ (value.size_of_val(tracker) - mem::size_of_val(value))` with the
subtraction performed separately for every child; `none` models the
underflow panic/wrap when a child's deep size is below its flat size. -/
def extraSum : RList → Tracker → Option (Nat × Tracker)
  | .nil, t => some (0, t)
  | .cons v vs, t =>
    match sizeOfVal v t with
    | some (n, t1) =>
      if flatSize v ≤ n then
        match extraSum vs t1 with
        | some (m, t2) => some ((n - flatSize v) + m, t2)
        | none => none
      else none
    | none => none

/-- The element walk of the `Vec<T>` impl:
`Σ value.size_of_val(tracker)` — full sizes, no subtraction. -/
def fullSum : RList → Tracker → Option (Nat × Tracker)
  | .nil, t => some (0, t)
  | .cons v vs, t =>
    match sizeOfVal v t with
    | some (n, t1) =>
      match fullSum vs t1 with
      | some (m, t2) => some (n + m, t2)
      | none => none
    | none => none

/-- The left-associated `+ child.size_of_val - flat(child)` chain emitted
by the tuple macro and by `loupe-derive` for structs and enum variants:
starting from accumulator `acc`, each step computes
`acc + child.size_of_val` and then subtracts the child's flat size,
failing (`none`) exactly when that subtraction underflows. -/
def tupleChain : Nat → RList → Tracker → Option (Nat × Tracker)
  | acc, .nil, t => some (acc, t)
  | acc, .cons v vs, t =>
    match sizeOfVal v t with
    | some (n, t1) =>
      if flatSize v ≤ acc + n then tupleChain (acc + n - flatSize v) vs t1 else none
    | none => none

/-- The entry walk of the `HashMap<K, V>` impl:
`Σ (key.size_of_val(tracker) + value.size_of_val(tracker))`, key first. -/
def pairsSum : RPairs → Tracker → Option (Nat × Tracker)
  | .nil, t => some (0, t)
  | .cons k v ps, t =>
    match sizeOfVal k t with
    | some (nk, t1) =>
      match sizeOfVal v t1 with
      | some (nv, t2) =>
        match pairsSum ps t2 with
        | some (m, t3) => some ((nk + nv) + m, t3)
        | none => none
      | none => none
    | none => none

end

mutual

/-- Values whose every leaf rule keeps the measured size at or above the
flat size: no raw pointer (`*const T` / `*mut T` / `NonNull<T>`), no
`UnsafeCell`, and every `String` at least one pointer width long (a
`String` measures `2 * POINTER_BYTE_SIZE + len` through its `&str` view,
which drops below its `3 * POINTER_BYTE_SIZE` flat size when
`len < POINTER_BYTE_SIZE`). -/
def FlatSafe : RValue → Bool
  | .prim _ => true
  | .ref _ v => FlatSafe v
  | .rawPtr _ => false
  | .cell _ _ => false
  | .slice vs => FlatSafeList vs
  | .arr vs => FlatSafeList vs
  | .tup _ vs => FlatSafeList vs
  | .boxV _ v => FlatSafe v
  | .arc _ v => FlatSafe v
  | .vecV _ vs => FlatSafeList vs
  | .hashMapV _ kvs => FlatSafePairs kvs
  | .strRef _ => true
  | .stringV len _ => decide (POINTER_BYTE_SIZE ≤ len)
  | .pathBuf _ _ => true
  | .structV _ fields => FlatSafeList fields
  | .enumV _ fields => FlatSafeList fields

/-- All values of the list are `FlatSafe`. -/
def FlatSafeList : RList → Bool
  | .nil => true
  | .cons v vs => FlatSafe v && FlatSafeList vs

/-- All keys and values of the entry list are `FlatSafe`. -/
def FlatSafePairs : RPairs → Bool
  | .nil => true
  | .cons k v ps => FlatSafe k && (FlatSafe v && FlatSafePairs ps)

end

/-- Generation-time shape of a user type: the input the derive macro
receives through `syn::Data` in `derive_memory_usage`
(`loupe-derive/src/lib.rs` lines 6-29) — a struct, an enum with its
variants, or a union.  Only the field/variant counts matter to the
dispatch being modelled. -/
inductive DataShape where
  | structData (fieldCount : Nat)
  | enumData (variantFieldCounts : List Nat)
  | unionData (fieldCount : Nat)

/-- A successfully generated `MemoryUsage` implementation.  Its run-time
behaviour is embedded by the `structV` and `enumV` equations of
`sizeOfVal`. -/
inductive DerivedImpl where
  | structImpl (fieldCount : Nat)
  | enumImpl (variantFieldCounts : List Nat)

/-- Embeds the dispatch of `derive_memory_usage`: `Data::Struct` goes to
`derive_memory_usage_for_struct`, `Data::Enum` to
`derive_memory_usage_for_enum`, and `Data::Union(_)` panics with
"unions are not yet implemented" — a procedural-macro panic is a
compile-time (build) failure, modelled as `Except.error` carrying the
panic message. -/
def derive_memory_usage : DataShape → Except String DerivedImpl
  | .structData n => .ok (.structImpl n)
  | .enumData cs => .ok (.enumImpl cs)
  | .unionData _ => .error "unions are not yet implemented"

/-- An already-tracked address is reported as not new and leaves the
tracker unchanged. -/
theorem track_mem {t : Tracker} {a : Addr} (ha : a ∈ t) :
    track t a = (false, t) := by
  simp [track, ha]

/-- A fresh address is reported as new and is inserted. -/
theorem track_not_mem {t : Tracker} {a : Addr} (ha : a ∉ t) :
    track t a = (true, a :: t) := by
  simp [track, ha]

/-- Unfolding of the `&T` rule at an already-tracked address: the
reference contributes only its own flat (pointer) size. -/
theorem sizeOfVal_ref_mem (a : Addr) (v : RValue) {t : Tracker} (ha : a ∈ t) :
    sizeOfVal (.ref a v) t = some (POINTER_BYTE_SIZE, t) := by
  simp [sizeOfVal, track_mem ha]

/-- Unfolding of the `&T` rule at a fresh address: the pointee is walked
with the address inserted. -/
theorem sizeOfVal_ref_not_mem (a : Addr) (v : RValue) {t : Tracker} (ha : a ∉ t) :
    sizeOfVal (.ref a v) t =
      match sizeOfVal v (a :: t) with
      | some (n, t2) => some (POINTER_BYTE_SIZE + n, t2)
      | none => none := by
  simp [sizeOfVal, track_not_mem ha]

/-- Unfolding of the raw-pointer rule. -/
theorem sizeOfVal_rawPtr (a : Addr) (t : Tracker) :
    sizeOfVal (.rawPtr a) t =
      if a ∈ t then some (0, t) else some (POINTER_BYTE_SIZE, a :: t) := by
  by_cases ha : a ∈ t
  · simp [sizeOfVal, track_mem ha, ha]
  · simp [sizeOfVal, track_not_mem ha, ha]

/-- Unfolding of the `UnsafeCell` rule. -/
theorem sizeOfVal_cell (a : Addr) (innerFlat : Nat) (t : Tracker) :
    sizeOfVal (.cell a innerFlat) t =
      if a ∈ t then some (0, t) else some (POINTER_BYTE_SIZE, a :: t) := by
  by_cases ha : a ∈ t
  · simp [sizeOfVal, track_mem ha, ha]
  · simp [sizeOfVal, track_not_mem ha, ha]

mutual

/-- The walk only ever inserts into the tracker: every address tracked
before a measurement is still tracked after it. -/
theorem mono_val : ∀ (v : RValue) (t : Tracker) (n : Nat) (t2 : Tracker),
    sizeOfVal v t = some (n, t2) → t ⊆ t2
  | .prim _, t, _, t2, h => by
      simp only [sizeOfVal, Option.some.injEq, Prod.mk.injEq] at h
      exact h.2 ▸ List.Subset.refl t
  | .ref a v, t, n, t2, h => by
      by_cases ha : a ∈ t
      · rw [sizeOfVal_ref_mem a v ha] at h
        simp only [Option.some.injEq, Prod.mk.injEq] at h
        exact h.2 ▸ List.Subset.refl t
      · rw [sizeOfVal_ref_not_mem a v ha] at h
        cases hv : sizeOfVal v (a :: t) with
        | none => rw [hv] at h; cases h
        | some p =>
          obtain ⟨m, t3⟩ := p
          rw [hv] at h
          simp only [Option.some.injEq, Prod.mk.injEq] at h
          have hsub := mono_val v (a :: t) m t3 hv
          exact h.2 ▸ fun x hx => hsub (List.mem_cons_of_mem _ hx)
  | .rawPtr a, t, n, t2, h => by
      rw [sizeOfVal_rawPtr] at h
      by_cases ha : a ∈ t
      · simp only [ha, if_true, Option.some.injEq, Prod.mk.injEq] at h
        exact h.2 ▸ List.Subset.refl t
      · simp only [ha, if_false, Option.some.injEq, Prod.mk.injEq] at h
        exact h.2 ▸ fun x hx => List.mem_cons_of_mem _ hx
  | .cell a innerFlat, t, n, t2, h => by
      rw [sizeOfVal_cell] at h
      by_cases ha : a ∈ t
      · simp only [ha, if_true, Option.some.injEq, Prod.mk.injEq] at h
        exact h.2 ▸ List.Subset.refl t
      · simp only [ha, if_false, Option.some.injEq, Prod.mk.injEq] at h
        exact h.2 ▸ fun x hx => List.mem_cons_of_mem _ hx
  | .slice vs, t, n, t2, h => by
      simp only [sizeOfVal] at h
      cases he : extraSum vs t with
      | none => rw [he] at h; cases h
      | some p =>
        obtain ⟨e, t1⟩ := p
        rw [he] at h
        simp only [Option.some.injEq, Prod.mk.injEq] at h
        exact h.2 ▸ mono_extra vs t e t1 he
  | .arr vs, t, n, t2, h => by
      simp only [sizeOfVal] at h
      cases he : extraSum vs t with
      | none => rw [he] at h; cases h
      | some p =>
        obtain ⟨e, t1⟩ := p
        rw [he] at h
        simp only [Option.some.injEq, Prod.mk.injEq] at h
        exact h.2 ▸ mono_extra vs t e t1 he
  | .tup pad vs, t, n, t2, h => by
      simp only [sizeOfVal] at h
      exact mono_chain vs (pad + flatList vs) t n t2 h
  | .boxV ptrFlat v, t, n, t2, h => by
      simp only [sizeOfVal] at h
      cases hv : sizeOfVal v t with
      | none => rw [hv] at h; cases h
      | some p =>
        obtain ⟨m, t1⟩ := p
        rw [hv] at h
        simp only [Option.some.injEq, Prod.mk.injEq] at h
        exact h.2 ▸ mono_val v t m t1 hv
  | .arc ptrFlat v, t, n, t2, h => by
      simp only [sizeOfVal] at h
      cases hv : sizeOfVal v t with
      | none => rw [hv] at h; cases h
      | some p =>
        obtain ⟨m, t1⟩ := p
        rw [hv] at h
        simp only [Option.some.injEq, Prod.mk.injEq] at h
        exact h.2 ▸ mono_val v t m t1 hv
  | .vecV headerFlat vs, t, n, t2, h => by
      simp only [sizeOfVal] at h
      cases hv : fullSum vs t with
      | none => rw [hv] at h; cases h
      | some p =>
        obtain ⟨m, t1⟩ := p
        rw [hv] at h
        simp only [Option.some.injEq, Prod.mk.injEq] at h
        exact h.2 ▸ mono_full vs t m t1 hv
  | .hashMapV headerFlat kvs, t, n, t2, h => by
      simp only [sizeOfVal] at h
      cases hv : pairsSum kvs t with
      | none => rw [hv] at h; cases h
      | some p =>
        obtain ⟨m, t1⟩ := p
        rw [hv] at h
        simp only [Option.some.injEq, Prod.mk.injEq] at h
        exact h.2 ▸ mono_pairs kvs t m t1 hv
  | .strRef len, t, n, t2, h => by
      simp only [sizeOfVal, Option.some.injEq, Prod.mk.injEq] at h
      exact h.2 ▸ List.Subset.refl t
  | .stringV len cap, t, n, t2, h => by
      simp only [sizeOfVal, Option.some.injEq, Prod.mk.injEq] at h
      exact h.2 ▸ List.Subset.refl t
  | .pathBuf headerFlat cap, t, n, t2, h => by
      simp only [sizeOfVal, Option.some.injEq, Prod.mk.injEq] at h
      exact h.2 ▸ List.Subset.refl t
  | .structV pad fields, t, n, t2, h => by
      simp only [sizeOfVal] at h
      exact mono_chain fields (pad + flatList fields) t n t2 h
  | .enumV flat fields, t, n, t2, h => by
      simp only [sizeOfVal] at h
      cases hc : tupleChain 0 fields t with
      | none => rw [hc] at h; cases h
      | some p =>
        obtain ⟨e, t1⟩ := p
        rw [hc] at h
        simp only [Option.some.injEq, Prod.mk.injEq] at h
        exact h.2 ▸ mono_chain fields 0 t e t1 hc

/-- Tracker monotonicity for the slice/array element walk. -/
theorem mono_extra : ∀ (vs : RList) (t : Tracker) (n : Nat) (t2 : Tracker),
    extraSum vs t = some (n, t2) → t ⊆ t2
  | .nil, t, _, t2, h => by
      simp only [extraSum, Option.some.injEq, Prod.mk.injEq] at h
      exact h.2 ▸ List.Subset.refl t
  | .cons v vs, t, n, t2, h => by
      simp only [extraSum] at h
      cases hv : sizeOfVal v t with
      | none => rw [hv] at h; cases h
      | some p =>
        obtain ⟨m, t1⟩ := p
        rw [hv] at h
        dsimp only at h
        by_cases hle : flatSize v ≤ m
        · rw [if_pos hle] at h
          cases hrest : extraSum vs t1 with
          | none => rw [hrest] at h; cases h
          | some q =>
            obtain ⟨e, t3⟩ := q
            rw [hrest] at h
            simp only [Option.some.injEq, Prod.mk.injEq] at h
            exact h.2 ▸ fun x hx => mono_extra vs t1 e t3 hrest (mono_val v t m t1 hv hx)
        · rw [if_neg hle] at h; cases h

/-- Tracker monotonicity for the `Vec` element walk. -/
theorem mono_full : ∀ (vs : RList) (t : Tracker) (n : Nat) (t2 : Tracker),
    fullSum vs t = some (n, t2) → t ⊆ t2
  | .nil, t, _, t2, h => by
      simp only [fullSum, Option.some.injEq, Prod.mk.injEq] at h
      exact h.2 ▸ List.Subset.refl t
  | .cons v vs, t, n, t2, h => by
      simp only [fullSum] at h
      cases hv : sizeOfVal v t with
      | none => rw [hv] at h; cases h
      | some p =>
        obtain ⟨m, t1⟩ := p
        rw [hv] at h
        dsimp only at h
        cases hrest : fullSum vs t1 with
        | none => rw [hrest] at h; cases h
        | some q =>
          obtain ⟨e, t3⟩ := q
          rw [hrest] at h
          simp only [Option.some.injEq, Prod.mk.injEq] at h
          exact h.2 ▸ fun x hx => mono_full vs t1 e t3 hrest (mono_val v t m t1 hv hx)

/-- Tracker monotonicity for the left-associated subtraction chain. -/
theorem mono_chain : ∀ (vs : RList) (acc : Nat) (t : Tracker) (n : Nat) (t2 : Tracker),
    tupleChain acc vs t = some (n, t2) → t ⊆ t2
  | .nil, acc, t, _, t2, h => by
      simp only [tupleChain, Option.some.injEq, Prod.mk.injEq] at h
      exact h.2 ▸ List.Subset.refl t
  | .cons v vs, acc, t, n, t2, h => by
      simp only [tupleChain] at h
      cases hv : sizeOfVal v t with
      | none => rw [hv] at h; cases h
      | some p =>
        obtain ⟨m, t1⟩ := p
        rw [hv] at h
        dsimp only at h
        by_cases hle : flatSize v ≤ acc + m
        · rw [if_pos hle] at h
          exact fun x hx => mono_chain vs (acc + m - flatSize v) t1 n t2 h (mono_val v t m t1 hv hx)
        · rw [if_neg hle] at h; cases h

/-- Tracker monotonicity for the `HashMap` entry walk. -/
theorem mono_pairs : ∀ (ps : RPairs) (t : Tracker) (n : Nat) (t2 : Tracker),
    pairsSum ps t = some (n, t2) → t ⊆ t2
  | .nil, t, _, t2, h => by
      simp only [pairsSum, Option.some.injEq, Prod.mk.injEq] at h
      exact h.2 ▸ List.Subset.refl t
  | .cons k v ps, t, n, t2, h => by
      simp only [pairsSum] at h
      cases hk : sizeOfVal k t with
      | none => rw [hk] at h; cases h
      | some p =>
        obtain ⟨nk, t1⟩ := p
        rw [hk] at h
        dsimp only at h
        cases hv : sizeOfVal v t1 with
        | none => rw [hv] at h; cases h
        | some q =>
          obtain ⟨nv, t3⟩ := q
          rw [hv] at h
          dsimp only at h
          cases hrest : pairsSum ps t3 with
          | none => rw [hrest] at h; cases h
          | some r =>
            obtain ⟨m, t4⟩ := r
            rw [hrest] at h
            simp only [Option.some.injEq, Prod.mk.injEq] at h
            exact h.2 ▸ fun x hx =>
              mono_pairs ps t3 m t4 hrest
                (mono_val v t1 nv t3 hv (mono_val k t nk t1 hk hx))

end

mutual

/-- Main invariant: on a `FlatSafe` value the walk cannot fail (no
subtraction underflows anywhere inside) and the measured size is at least
the flat size of the value, for every tracker state. -/
theorem geFlat_val : ∀ (v : RValue) (t : Tracker), FlatSafe v = true →
    ∃ n t2, sizeOfVal v t = some (n, t2) ∧ flatSize v ≤ n ∧ t ⊆ t2
  | .prim sz, t, _ => ⟨sz, t, rfl, Nat.le_refl _, List.Subset.refl t⟩
  | .ref a v, t, hs => by
      by_cases ha : a ∈ t
      · exact ⟨POINTER_BYTE_SIZE, t, sizeOfVal_ref_mem a v ha, Nat.le_refl _,
          List.Subset.refl t⟩
      · have hsv : FlatSafe v = true := by simpa [FlatSafe] using hs
        obtain ⟨n, t2, hev, hge, hsub⟩ := geFlat_val v (a :: t) hsv
        refine ⟨POINTER_BYTE_SIZE + n, t2, ?_, Nat.le_add_right _ _, ?_⟩
        · rw [sizeOfVal_ref_not_mem a v ha, hev]
        · exact fun x hx => hsub (List.mem_cons_of_mem _ hx)
  | .rawPtr a, t, hs => by simp [FlatSafe] at hs
  | .cell a innerFlat, t, hs => by simp [FlatSafe] at hs
  | .slice vs, t, hs => by
      have hl : FlatSafeList vs = true := by simpa [FlatSafe] using hs
      obtain ⟨e, t2, he, hsub⟩ := geFlat_extra vs t hl
      refine ⟨flatList vs + e, t2, ?_, Nat.le_add_right _ _, hsub⟩
      simp only [sizeOfVal, he]
  | .arr vs, t, hs => by
      have hl : FlatSafeList vs = true := by simpa [FlatSafe] using hs
      obtain ⟨e, t2, he, hsub⟩ := geFlat_extra vs t hl
      refine ⟨flatList vs + e, t2, ?_, Nat.le_add_right _ _, hsub⟩
      simp only [sizeOfVal, he]
  | .tup pad vs, t, hs => by
      have hl : FlatSafeList vs = true := by simpa [FlatSafe] using hs
      obtain ⟨n, t2, hc, hge, hsub⟩ := geFlat_chain vs (pad + flatList vs) t hl
      exact ⟨n, t2, by simp only [sizeOfVal]; exact hc, hge, hsub⟩
  | .boxV ptrFlat v, t, hs => by
      have hsv : FlatSafe v = true := by simpa [FlatSafe] using hs
      obtain ⟨n, t2, hev, hge, hsub⟩ := geFlat_val v t hsv
      refine ⟨ptrFlat + n, t2, ?_, Nat.le_add_right _ _, hsub⟩
      simp only [sizeOfVal, hev]
  | .arc ptrFlat v, t, hs => by
      have hsv : FlatSafe v = true := by simpa [FlatSafe] using hs
      obtain ⟨n, t2, hev, hge, hsub⟩ := geFlat_val v t hsv
      refine ⟨ptrFlat + n, t2, ?_, Nat.le_add_right _ _, hsub⟩
      simp only [sizeOfVal, hev]
  | .vecV headerFlat vs, t, hs => by
      have hl : FlatSafeList vs = true := by simpa [FlatSafe] using hs
      obtain ⟨n, t2, hf, hsub⟩ := geFlat_full vs t hl
      refine ⟨headerFlat + n, t2, ?_, Nat.le_add_right _ _, hsub⟩
      simp only [sizeOfVal, hf]
  | .hashMapV headerFlat kvs, t, hs => by
      have hl : FlatSafePairs kvs = true := by simpa [FlatSafe] using hs
      obtain ⟨n, t2, hp, hsub⟩ := geFlat_pairs kvs t hl
      refine ⟨headerFlat + n, t2, ?_, Nat.le_add_right _ _, hsub⟩
      simp only [sizeOfVal, hp]
  | .strRef len, t, _ =>
      ⟨2 * POINTER_BYTE_SIZE + len, t, rfl, Nat.le_add_right _ _, List.Subset.refl t⟩
  | .stringV len cap, t, hs => by
      have h8 : POINTER_BYTE_SIZE ≤ len := by simpa [FlatSafe] using hs
      refine ⟨2 * POINTER_BYTE_SIZE + len, t, rfl, ?_, List.Subset.refl t⟩
      simp only [flatSize, POINTER_BYTE_SIZE] at h8 ⊢
      omega
  | .pathBuf headerFlat cap, t, _ =>
      ⟨headerFlat + cap, t, rfl, Nat.le_add_right _ _, List.Subset.refl t⟩
  | .structV pad fields, t, hs => by
      have hl : FlatSafeList fields = true := by simpa [FlatSafe] using hs
      obtain ⟨n, t2, hc, hge, hsub⟩ := geFlat_chain fields (pad + flatList fields) t hl
      exact ⟨n, t2, by simp only [sizeOfVal]; exact hc, hge, hsub⟩
  | .enumV flat fields, t, hs => by
      have hl : FlatSafeList fields = true := by simpa [FlatSafe] using hs
      obtain ⟨e, t2, hc, hge, hsub⟩ := geFlat_chain fields 0 t hl
      refine ⟨flat + e, t2, ?_, Nat.le_add_right _ _, hsub⟩
      simp only [sizeOfVal, hc]

/-- On `FlatSafe` elements the per-child subtraction of the slice/array
walk is always in range, so the walk returns a sum. -/
theorem geFlat_extra : ∀ (vs : RList) (t : Tracker), FlatSafeList vs = true →
    ∃ e t2, extraSum vs t = some (e, t2) ∧ t ⊆ t2
  | .nil, t, _ => ⟨0, t, rfl, List.Subset.refl t⟩
  | .cons v vs, t, hs => by
      have hp : FlatSafe v = true ∧ FlatSafeList vs = true := by
        simpa [FlatSafeList, Bool.and_eq_true] using hs
      obtain ⟨n, t1, hev, hge, hsub1⟩ := geFlat_val v t hp.1
      obtain ⟨e, t2, hes, hsub2⟩ := geFlat_extra vs t1 hp.2
      refine ⟨(n - flatSize v) + e, t2, ?_, fun x hx => hsub2 (hsub1 hx)⟩
      simp only [extraSum, hev, if_pos hge, hes]

/-- On `FlatSafe` elements the `Vec` walk returns a sum. -/
theorem geFlat_full : ∀ (vs : RList) (t : Tracker), FlatSafeList vs = true →
    ∃ n t2, fullSum vs t = some (n, t2) ∧ t ⊆ t2
  | .nil, t, _ => ⟨0, t, rfl, List.Subset.refl t⟩
  | .cons v vs, t, hs => by
      have hp : FlatSafe v = true ∧ FlatSafeList vs = true := by
        simpa [FlatSafeList, Bool.and_eq_true] using hs
      obtain ⟨n, t1, hev, hge, hsub1⟩ := geFlat_val v t hp.1
      obtain ⟨m, t2, hfs, hsub2⟩ := geFlat_full vs t1 hp.2
      refine ⟨n + m, t2, ?_, fun x hx => hsub2 (hsub1 hx)⟩
      simp only [fullSum, hev, hfs]

/-- On `FlatSafe` elements the left-associated subtraction chain never
underflows and its running accumulator never decreases. -/
theorem geFlat_chain : ∀ (vs : RList) (acc : Nat) (t : Tracker), FlatSafeList vs = true →
    ∃ n t2, tupleChain acc vs t = some (n, t2) ∧ acc ≤ n ∧ t ⊆ t2
  | .nil, acc, t, _ => ⟨acc, t, rfl, Nat.le_refl _, List.Subset.refl t⟩
  | .cons v vs, acc, t, hs => by
      have hp : FlatSafe v = true ∧ FlatSafeList vs = true := by
        simpa [FlatSafeList, Bool.and_eq_true] using hs
      obtain ⟨n, t1, hev, hge, hsub1⟩ := geFlat_val v t hp.1
      have hcond : flatSize v ≤ acc + n := Nat.le_trans hge (Nat.le_add_left n acc)
      obtain ⟨m, t2, hch, hge2, hsub2⟩ := geFlat_chain vs (acc + n - flatSize v) t1 hp.2
      refine ⟨m, t2, ?_, ?_, fun x hx => hsub2 (hsub1 hx)⟩
      · simp only [tupleChain, hev, if_pos hcond, hch]
      · omega

/-- On `FlatSafe` keys and values the `HashMap` walk returns a sum. -/
theorem geFlat_pairs : ∀ (ps : RPairs) (t : Tracker), FlatSafePairs ps = true →
    ∃ n t2, pairsSum ps t = some (n, t2) ∧ t ⊆ t2
  | .nil, t, _ => ⟨0, t, rfl, List.Subset.refl t⟩
  | .cons k v ps, t, hs => by
      have hp : FlatSafe k = true ∧ FlatSafe v = true ∧ FlatSafePairs ps = true := by
        simpa [FlatSafePairs, Bool.and_eq_true] using hs
      obtain ⟨nk, t1, hek, hgek, hsub1⟩ := geFlat_val k t hp.1
      obtain ⟨nv, t2, hev, hgev, hsub2⟩ := geFlat_val v t1 hp.2.1
      obtain ⟨m, t3, hps, hsub3⟩ := geFlat_pairs ps t2 hp.2.2
      refine ⟨(nk + nv) + m, t3, ?_, fun x hx => hsub3 (hsub2 (hsub1 hx))⟩
      simp only [pairsSum, hek, hev, hps]

end

/-- When every per-child subtraction is in range (i.e. `extraSum`
returns), the left-associated chain emitted by the tuple macro and by
`loupe-derive` computes exactly `acc` plus the per-child extra sum. -/
theorem tupleChain_of_extraSum : ∀ (vs : RList) (acc : Nat) (t : Tracker) (e : Nat)
    (t2 : Tracker), extraSum vs t = some (e, t2) →
    tupleChain acc vs t = some (acc + e, t2)
  | .nil, acc, t, e, t2, h => by
      simp only [extraSum, Option.some.injEq, Prod.mk.injEq] at h
      obtain ⟨h1, h2⟩ := h
      subst h2
      simp [tupleChain, ← h1]
  | .cons v vs, acc, t, e, t2, h => by
      simp only [extraSum] at h
      cases hv : sizeOfVal v t with
      | none => rw [hv] at h; cases h
      | some p =>
        obtain ⟨n, t1⟩ := p
        rw [hv] at h
        dsimp only at h
        by_cases hle : flatSize v ≤ n
        · rw [if_pos hle] at h
          cases hrest : extraSum vs t1 with
          | none => rw [hrest] at h; cases h
          | some q =>
            obtain ⟨m, t3⟩ := q
            rw [hrest] at h
            simp only [Option.some.injEq, Prod.mk.injEq] at h
            obtain ⟨h1, h2⟩ := h
            subst h2
            have hrec := tupleChain_of_extraSum vs (acc + n - flatSize v) t1 m t3 hrest
            simp only [tupleChain, hv,
              if_pos (Nat.le_trans hle (Nat.le_add_left n acc)), hrec,
              Option.some.injEq, Prod.mk.injEq, and_true]
            omega
        · rw [if_neg hle] at h; cases h

/-- C1 counterexample: the claimed guarantee `size_of_val ≥ flat_size`
fails on the code exactly at the places the claim singles out.  An
`UnsafeCell` whose wrapped value is 100 bytes wide (flat size 100)
measures only one pointer width even on first encounter, and a raw
pointer whose address was already tracked measures 0, below its
pointer-wide flat size. -/
theorem size_of_val_below_flat_size_counterexample :
    sizeOfVal (RValue.cell 0 100) [] = some (POINTER_BYTE_SIZE, [0]) ∧
    POINTER_BYTE_SIZE < flatSize (RValue.cell 0 100) ∧
    sizeOfVal (RValue.rawPtr 5) [5] = some (0, [5]) ∧
    0 < flatSize (RValue.rawPtr 5) :=
  ⟨by decide, by decide, by decide, by decide⟩

/-- C1 as amended: for every value and tracker state, `size_of_val`
returns (no underflow inside) and the result is at least the trusted
layout primitive's flat size of that exact value, provided the value is
`FlatSafe` — it contains no raw pointer, `NonNull` or `UnsafeCell` node
(those leaves report at most one pointer width, and 0 once their address
is tracked) and no `String` shorter than one pointer width (a `String`
measures `2·W + len` through its `&str` view, below its `3·W` flat
size when `len < W`). -/
theorem size_of_val_ge_flat_size_of_flatSafe (v : RValue) (t : Tracker)
    (hs : FlatSafe v = true) :
    ∃ n t2, sizeOfVal v t = some (n, t2) ∧ flatSize v ≤ n := by
  obtain ⟨n, t2, h1, h2, _⟩ := geFlat_val v t hs
  exact ⟨n, t2, h1, h2⟩

/-- Witness for the amended C1 at a concrete input: a reference to a
4-byte integer under a fresh tracker. -/
theorem size_of_val_ge_flat_size_witness :
    ∃ n t2, sizeOfVal (RValue.ref 0 (RValue.prim 4)) [] = some (n, t2) ∧
      flatSize (RValue.ref 0 (RValue.prim 4)) ≤ n :=
  size_of_val_ge_flat_size_of_flatSafe (RValue.ref 0 (RValue.prim 4)) [] (by decide)

/-- C2 counterexample: a slice whose two elements are raw pointers to the
same address.  The first element is tracked and measures its flat size
(extra 0); the second measures 0, so the per-child subtraction
`child.size_of_val(tracker) - flat_size(child)` is `0 - 8` and the walk
fails (debug panic / release wrap), modelled as `none`. -/
theorem slice_child_subtraction_underflow_counterexample :
    sizeOfVal (RValue.slice (RList.cons (RValue.rawPtr 7)
        (RList.cons (RValue.rawPtr 7) RList.nil))) [] = none ∧
    extraSum (RList.cons (RValue.rawPtr 7)
        (RList.cons (RValue.rawPtr 7) RList.nil)) [] = none ∧
    sizeOfVal (RValue.rawPtr 7) [7] = some (0, [7]) ∧
    flatSize (RValue.rawPtr 7) = POINTER_BYTE_SIZE :=
  ⟨by decide, by decide, by decide, rfl⟩

/-- C2 as amended: the per-child subtraction of the extra-only containers
never underflows provided every child is `FlatSafe` (no raw pointer,
`NonNull` or `UnsafeCell` anywhere below, and no `String` shorter than a
pointer width): both the per-element subtraction of the slice/array walk
(`extraSum`) and the left-associated subtraction chain of the
tuple/derived-aggregate code (`tupleChain`, from any accumulator) then
always return a value.  With a raw-pointer or cell child whose address
was already tracked, the subtraction does underflow (see the
counterexample). -/
theorem extra_subtraction_in_range_of_flatSafe (vs : RList) (acc : Nat)
    (t : Tracker) (hs : FlatSafeList vs = true) :
    (∃ e t2, extraSum vs t = some (e, t2)) ∧
    (∃ n t2, tupleChain acc vs t = some (n, t2)) := by
  obtain ⟨e, t2, h1, _⟩ := geFlat_extra vs t hs
  obtain ⟨n, t3, h2, _, _⟩ := geFlat_chain vs acc t hs
  exact ⟨⟨e, t2, h1⟩, ⟨n, t3, h2⟩⟩

/-- Witness for the amended C2 at a concrete input: a single 4-byte
primitive element, fresh tracker, chain accumulator 3. -/
theorem extra_subtraction_in_range_witness :
    (∃ e t2, extraSum (RList.cons (RValue.prim 4) RList.nil) [] = some (e, t2)) ∧
    (∃ n t2, tupleChain 3 (RList.cons (RValue.prim 4) RList.nil) [] = some (n, t2)) :=
  extra_subtraction_in_range_of_flatSafe (RList.cons (RValue.prim 4) RList.nil) 3 []
    (by decide)

/-- C3 counterexample: a `String` with length 0 and capacity 10.  The
claim predicts `flat_size + capacity = 3·W + 10 = 34` bytes, but the
`String` impl measures through `as_str()`, returning
`2·W + len = 16` — the capacity (and even the `String` header's own
third word) is not counted. -/
theorem string_capacity_not_counted :
    sizeOfVal (RValue.stringV 0 10) [] = some (2 * POINTER_BYTE_SIZE, []) ∧
    2 * POINTER_BYTE_SIZE ≠ flatSize (RValue.stringV 0 10) + 10 :=
  ⟨rfl, by decide⟩

/-- C3 as amended: the capacity rule holds for `PathBuf`
(`flat_size + capacity`, over-provisioning counted in full), but a
`String` measures `2·W + current length` through its `&str` view — its
capacity is never read. -/
theorem pathbuf_capacity_string_length_rule (headerFlat cap len scap : Nat)
    (t : Tracker) :
    sizeOfVal (RValue.pathBuf headerFlat cap) t
      = some (flatSize (RValue.pathBuf headerFlat cap) + cap, t) ∧
    sizeOfVal (RValue.stringV len scap) t
      = some (2 * POINTER_BYTE_SIZE + len, t) :=
  ⟨rfl, rfl⟩

/-- C4: measuring `&T` at the same address twice in one walk charges the
reference's flat (pointer) size plus the pointee's full recursive size on
the first call, and exactly the pointer size (zero extra) on the second,
because `tracker.track` answers `true` only the first time the address is
seen. -/
theorem ref_dedup_first_full_second_flat (a : Addr) (v : RValue) (t : Tracker)
    (n : Nat) (t1 : Tracker) (ha : a ∉ t)
    (hv : sizeOfVal v (a :: t) = some (n, t1)) :
    sizeOfVal (RValue.ref a v) t = some (POINTER_BYTE_SIZE + n, t1) ∧
    sizeOfVal (RValue.ref a v) t1 = some (POINTER_BYTE_SIZE, t1) := by
  have hmem : a ∈ t1 := mono_val v (a :: t) n t1 hv (List.mem_cons_self a t)
  constructor
  · rw [sizeOfVal_ref_not_mem a v ha, hv]
  · exact sizeOfVal_ref_mem a v hmem

/-- Witness for C4: a reference to a 4-byte integer, measured from a
fresh tracker and then again. -/
theorem ref_dedup_witness :
    sizeOfVal (RValue.ref 0 (RValue.prim 4)) [] = some (POINTER_BYTE_SIZE + 4, [0]) ∧
    sizeOfVal (RValue.ref 0 (RValue.prim 4)) [0] = some (POINTER_BYTE_SIZE, [0]) :=
  ref_dedup_first_full_second_flat 0 (RValue.prim 4) [] 4 [0] (by decide) (by decide)

/-- C5: the implementation generated by `loupe-derive` computes
`flat_size(self)` plus the extra-only sum `Σ (field.size_of_val −
flat_size(field))` over the fields — for an enum, over the fields of the
live variant selected by the generated `match` — and a zero-field struct
or variant contributes exactly 0 extra, returning exactly the flat
size. -/
theorem derived_struct_enum_extra_only_rule (pad flat : Nat) (fs : RList)
    (t : Tracker) (e : Nat) (t2 : Tracker) (hes : extraSum fs t = some (e, t2)) :
    sizeOfVal (RValue.structV pad fs) t
      = some (flatSize (RValue.structV pad fs) + e, t2) ∧
    sizeOfVal (RValue.enumV flat fs) t = some (flat + e, t2) ∧
    sizeOfVal (RValue.structV pad RList.nil) t
      = some (flatSize (RValue.structV pad RList.nil), t) ∧
    sizeOfVal (RValue.enumV flat RList.nil) t = some (flat, t) := by
  refine ⟨?_, ?_, ?_, ?_⟩
  · have h := tupleChain_of_extraSum fs (pad + flatList fs) t e t2 hes
    simpa [sizeOfVal, flatSize] using h
  · have h := tupleChain_of_extraSum fs 0 t e t2 hes
    simp [sizeOfVal, h]
  · simp [sizeOfVal, tupleChain, flatSize]
  · simp [sizeOfVal, tupleChain]

/-- Witness for C5: a one-field struct and a one-field live enum variant
(the field a reference to a 4-byte integer, extra 4), plus the zero-field
cases, from a fresh tracker. -/
theorem derived_struct_enum_witness :
    sizeOfVal (RValue.structV 0 (RList.cons (RValue.ref 1 (RValue.prim 4))
        RList.nil)) []
      = some (flatSize (RValue.structV 0 (RList.cons (RValue.ref 1 (RValue.prim 4))
          RList.nil)) + 4, [1]) ∧
    sizeOfVal (RValue.enumV 20 (RList.cons (RValue.ref 1 (RValue.prim 4))
        RList.nil)) [] = some (20 + 4, [1]) ∧
    sizeOfVal (RValue.structV 0 RList.nil) []
      = some (flatSize (RValue.structV 0 RList.nil), []) ∧
    sizeOfVal (RValue.enumV 20 RList.nil) [] = some (20, []) :=
  derived_struct_enum_extra_only_rule 0 20
    (RList.cons (RValue.ref 1 (RValue.prim 4)) RList.nil) [] 4 [1] (by decide)

/-- C6: an `Arc` measures its own flat size plus the full recursive size
of its referent, handing the referent exactly the tracker it received —
the tracker is never consulted for the referent's address — so a sequence
holding two shared owners of the same payload charges the payload in full
through each owner. -/
theorem arc_full_charge_no_dedup (ptrFlat headerFlat : Nat) (v : RValue)
    (t : Tracker) (n1 n2 : Nat) (t1 t2 : Tracker)
    (h1 : sizeOfVal v t = some (n1, t1)) (h2 : sizeOfVal v t1 = some (n2, t2)) :
    sizeOfVal (RValue.arc ptrFlat v) t = some (ptrFlat + n1, t1) ∧
    sizeOfVal (RValue.vecV headerFlat (RList.cons (RValue.arc ptrFlat v)
        (RList.cons (RValue.arc ptrFlat v) RList.nil))) t
      = some (headerFlat + ((ptrFlat + n1) + (ptrFlat + n2)), t2) := by
  have ha1 : sizeOfVal (RValue.arc ptrFlat v) t = some (ptrFlat + n1, t1) := by
    simp [sizeOfVal, h1]
  have ha2 : sizeOfVal (RValue.arc ptrFlat v) t1 = some (ptrFlat + n2, t2) := by
    simp [sizeOfVal, h2]
  refine ⟨ha1, ?_⟩
  simp [sizeOfVal, fullSum, h1, h2]

/-- Witness for C6: two `Arc`s over the same 4-byte payload inside one
`Vec`; the payload is charged twice in full. -/
theorem arc_full_charge_witness :
    sizeOfVal (RValue.arc 8 (RValue.prim 4)) [] = some (8 + 4, []) ∧
    sizeOfVal (RValue.vecV 24 (RList.cons (RValue.arc 8 (RValue.prim 4))
        (RList.cons (RValue.arc 8 (RValue.prim 4)) RList.nil))) []
      = some (24 + ((8 + 4) + (8 + 4)), []) :=
  arc_full_charge_no_dedup 8 24 (RValue.prim 4) [] 4 4 [] [] (by decide) (by decide)

/-- C7: a `Vec` measures the empty container's flat size (its
pointer/length/capacity header) plus the sum of the full `size_of_val` of
every stored element, and a `HashMap` measures its header plus the full
`size_of_val` of every key and every value — full per-element cost, not
the extra beyond each element's flat size. -/
theorem vec_hashmap_full_cost_rule (vecFlat mapFlat : Nat) (vs : RList)
    (ps : RPairs) (t u : Tracker) (s p : Nat) (t2 u2 : Tracker)
    (hfs : fullSum vs t = some (s, t2)) (hps : pairsSum ps u = some (p, u2)) :
    sizeOfVal (RValue.vecV vecFlat vs) t
      = some (flatSize (RValue.vecV vecFlat RList.nil) + s, t2) ∧
    sizeOfVal (RValue.hashMapV mapFlat ps) u
      = some (flatSize (RValue.hashMapV mapFlat RPairs.nil) + p, u2) := by
  constructor
  · simp [sizeOfVal, hfs, flatSize]
  · simp [sizeOfVal, hps, flatSize]

/-- Witness for C7: a one-element `Vec` and a one-entry `HashMap` of
primitives, from fresh trackers. -/
theorem vec_hashmap_witness :
    sizeOfVal (RValue.vecV 24 (RList.cons (RValue.prim 4) RList.nil)) []
      = some (flatSize (RValue.vecV 24 RList.nil) + 4, []) ∧
    sizeOfVal (RValue.hashMapV 48 (RPairs.cons (RValue.prim 1) (RValue.prim 4)
        RPairs.nil)) []
      = some (flatSize (RValue.hashMapV 48 RPairs.nil) + 5, []) :=
  vec_hashmap_full_cost_rule 24 48 (RList.cons (RValue.prim 4) RList.nil)
    (RPairs.cons (RValue.prim 1) (RValue.prim 4) RPairs.nil) [] [] 4 5 [] []
    (by decide) (by decide)

/-- C8: for every union shape the derive macro refuses to produce an
implementation — it fails at generation (build) time with the panic
message "unions are not yet implemented" and never returns a generated
implementation. -/
theorem derive_refuses_unions (n : Nat) :
    derive_memory_usage (DataShape.unionData n)
      = Except.error "unions are not yet implemented" ∧
    ∀ impl, derive_memory_usage (DataShape.unionData n) ≠ Except.ok impl := by
  refine ⟨rfl, fun impl h => ?_⟩
  simp [derive_memory_usage] at h

/-- C9: the string implementations never consult the dedup tracker — for
every tracker state a `&str` and a `String` measure the full byte length
of the underlying buffer on top of the `&str` fat-pointer flat size and
return the tracker unchanged, so repeated measurements of references
aliasing one buffer each charge the buffer's bytes in full (the third
conjunct walks two aliases of the same buffer in one sequence and charges
`len` twice), unlike `&T`, which dedups by address. -/
theorem strings_never_consult_tracker (len cap : Nat) (t : Tracker) :
    sizeOfVal (RValue.strRef len) t = some (2 * POINTER_BYTE_SIZE + len, t) ∧
    sizeOfVal (RValue.stringV len cap) t = some (2 * POINTER_BYTE_SIZE + len, t) ∧
    fullSum (RList.cons (RValue.strRef len) (RList.cons (RValue.strRef len)
        RList.nil)) t
      = some ((2 * POINTER_BYTE_SIZE + len) + ((2 * POINTER_BYTE_SIZE + len) + 0), t) :=
  ⟨rfl, rfl, rfl⟩

/-- C10: measuring a null raw pointer (address 0) is total and never
dereferences — it returns one pointer width when the null address is
fresh (inserting it), and 0 on any tracker that already contains the null
address, exactly as for any other address. -/
theorem null_pointer_total_dedup (t u : Tracker) (h0 : (0 : Addr) ∉ t)
    (h1 : (0 : Addr) ∈ u) :
    sizeOfVal (RValue.rawPtr 0) t = some (POINTER_BYTE_SIZE, 0 :: t) ∧
    sizeOfVal (RValue.rawPtr 0) u = some (0, u) := by
  constructor
  · rw [sizeOfVal_rawPtr]; simp [h0]
  · rw [sizeOfVal_rawPtr]; simp [h1]

/-- Witness for C10: a null pointer measured from a fresh tracker, then
from the tracker that already holds the null address. -/
theorem null_pointer_witness :
    sizeOfVal (RValue.rawPtr 0) [] = some (POINTER_BYTE_SIZE, [0]) ∧
    sizeOfVal (RValue.rawPtr 0) [0] = some (0, [0]) :=
  null_pointer_total_dedup [] [0] (by decide) (by decide)
